import Mathlib

/-
  Verification of the solvability-checker core of the overstack mini-game
  repository (src/solver.js).

  Board slots and tray entries are JS numbers; in this game they are
  integers: a slot holds either a piece-type identifier (small non-negative
  integer) or the empty sentinel -1.  We model them as `Int`.

  JS arrays become `List`; the JS `Map` used as transposition table becomes
  an association list keyed by the same hash string; JS `Object` key
  enumeration over numeric (array-index) keys proceeds in ascending numeric
  order, which we model by sorting the distinct icons ascending.
-/

namespace Overstack

/-- Remove the `n` earliest occurrences of `icon` from the list.  This is the
net effect of solver.js lines 40-43: it collects the indices of `icon`,
takes the first 3 (the lowest indices), and splices them out. -/
def removeN (icon : Int) : Nat → List Int → List Int
  | _, [] => []
  | 0, l => l
  | n + 1, x :: xs => if x = icon then removeN icon n xs else x :: removeN icon (n + 1) xs

/-- Find the first icon with count ≥ 3 (solver.js lines 26-38).  The JS code
builds an object keyed by icon index and iterates `for (const iconIdx in
iconCounts)`; for the non-negative integer piece-type identifiers used by the
game this enumeration is in ascending numeric key order, which we model by
sorting the distinct icons ascending before taking the first qualifying one. -/
def findTriple (tray : List Int) : Option Int :=
  (List.insertionSort (· ≤ ·) tray.dedup).find? (fun i => decide (3 ≤ tray.count i))

/-- Result record of the Resolution Engine (solver.js line 53). -/
structure ResolveResult where
  tray : List Int
  clearedCount : Nat
  clearedIcons : List Int
deriving DecidableEq, Repr

/-- The `while (changed)` loop of solver.js lines 22-51, written with fuel.
Each acting pass removes exactly 3 entries, so `tray.length` units of fuel
are more than enough (see `resolveGo_fuel_sufficient`). -/
def resolveGo : Nat → List Int → ResolveResult
  | 0, tray => ⟨tray, 0, []⟩
  | fuel + 1, tray =>
    match findTriple tray with
    | none => ⟨tray, 0, []⟩
    | some icon =>
      let rest := resolveGo fuel (removeN icon 3 tray)
      ⟨rest.tray, rest.clearedCount + 3, icon :: rest.clearedIcons⟩

/-- Resolution Engine: `resolveTrayTriples` of solver.js lines 17-54.  The JS
function first copies its argument (`[...trayIconIndices]`) and then mutates
only the copy; the value-level result is computed here, and the heap behaviour
is modelled separately by `resolveTrayTriplesH`. -/
def resolveTrayTriples (trayIconIndices : List Int) : ResolveResult :=
  resolveGo trayIconIndices.length trayIconIndices

/-- State signature used as transposition key, solver.js lines 60-62. -/
def hashState (board tray : List Int) : String :=
  String.intercalate "," (board.map toString) ++ "|" ++ String.intercalate "," (tray.map toString)

/-- Heuristic Scorer, `scoreState` of solver.js lines 67-100.  `board` is
received but never read, exactly as in the source. -/
def scoreState (board tray prevTray : List Int) (prevRemaining newRemaining : Int) : Int :=
  let _ := board
  let score0 : Int := 0
  -- Big reward for triple clears (lines 71-74): note the difference is taken
  -- against the tray from BEFORE the move (before the picked piece was
  -- appended), not against the pre-resolution tray.
  let cleared : Int := (prevTray.length : Int) - (tray.length : Int)
  let score1 := if 3 ≤ cleared then score0 + 100 * (cleared / 3) else score0
  -- Reward for building pairs in tray (lines 77-85).
  let score2 := score1 + 12 * ((tray.dedup.filter (fun i => decide (tray.count i = 2))).length : Int)
  -- Penalize new distinct icons in tray (lines 88-90).
  let newIcons := tray.filter (fun i => decide (i ∉ prevTray))
  let score3 := score2 - 8 * (newIcons.dedup.length : Int)
  -- Penalize tray length (line 93).
  let score4 := score3 - 3 * (tray.length : Int)
  -- Reward reducing remaining tiles (lines 96-97).
  score4 + (prevRemaining - newRemaining) * 5

/-- Count of non-empty board slots, `board.filter(i => i !== -1).length`
(solver.js lines 116, 137, 174). -/
def countRemaining (board : List Int) : Nat :=
  (board.filter (fun x => decide (x ≠ -1))).length

/-- Search node (solver.js lines 117-124, 197-204). -/
structure Node where
  board : List Int
  tray : List Int
  score : Int
  moves : List Nat
  depth : Nat
  hash : String
deriving DecidableEq, Repr

/-- Transposition-table entry (solver.js lines 126, 195). -/
structure VEntry where
  score : Int
  trayLen : Nat
deriving DecidableEq, Repr

/-- The JS `Map` used as the transposition table, as an association list with
the lookup/replace semantics of `Map.get`/`Map.set`. -/
abbrev VMap := List (String × VEntry)

/-- `visited.get(hash)` — first entry with the given key. -/
def mapGet (m : VMap) (k : String) : Option VEntry :=
  match m with
  | [] => none
  | (k2, v) :: rest => if k2 = k then some v else mapGet rest k

/-- `visited.set(hash, entry)` — replace in place if present, else append. -/
def mapSet (m : VMap) (k : String) (v : VEntry) : VMap :=
  match m with
  | [] => [(k, v)]
  | (k2, v2) :: rest => if k2 = k then (k, v) :: rest else (k2, v2) :: mapSet rest k v

/-- Mutable state threaded through one depth level of the search: the global
expansion counter, the transposition table, and the candidate list. -/
structure SearchSt where
  expansions : Nat
  visited : VMap
  candidates : List Node

/-- Data of a successful return from inside the frontier loop
(solver.js lines 139-149). -/
structure WinData where
  moves : List Nat
  score : Int
  expansions : Nat

/-- Expansion of a single frontier node over its clickable slots
(solver.js lines 155-205).  `remaining` is the non-empty count of
`node.board` computed by the caller at line 137.  A slot whose piece is the
empty sentinel still consumes one unit of expansion budget (the counter is
incremented before the `=== -1` check, lines 156-160). -/
def expandSlots (f : List Int → List Nat) (maxExp : Nat) (node : Node) (remaining : Nat) :
    List Nat → SearchSt → SearchSt
  | [], st => st
  | slotIdx :: rest, st =>
    if maxExp ≤ st.expansions then st  -- line 156: break
    else
      let st1 : SearchSt := ⟨st.expansions + 1, st.visited, st.candidates⟩
      let iconIdx := node.board.getD slotIdx (-1)
      if iconIdx = -1 then expandSlots f maxExp node remaining rest st1  -- line 160: continue
      else
        let newBoard := node.board.set slotIdx (-1)
        let newTray := node.tray ++ [iconIdx]
        let result := resolveTrayTriples newTray
        if 7 < result.tray.length then expandSlots f maxExp node remaining rest st1  -- lines 170-172
        else
          let newRemaining := countRemaining newBoard
          let newScore := node.score +
            scoreState newBoard result.tray node.tray (remaining : Int) (newRemaining : Int)
          let newMoves := node.moves ++ [slotIdx]
          let newHash := hashState newBoard result.tray
          let pruned :=  -- lines 187-193
            match mapGet st1.visited newHash with
            | some e => decide (newScore ≤ e.score) && decide (e.trayLen ≤ result.tray.length)
            | none => false
          if pruned then expandSlots f maxExp node remaining rest st1
          else
            let newNode : Node := ⟨newBoard, result.tray, newScore, newMoves, node.depth + 1, newHash⟩
            expandSlots f maxExp node remaining rest
              ⟨st1.expansions, mapSet st1.visited newHash ⟨newScore, result.tray.length⟩,
               st1.candidates ++ [newNode]⟩

/-- One depth level over the frontier, solver.js lines 133-206.  Note the
budget check at line 134 comes BEFORE the win-condition check at lines
137-150, so once the budget is spent even a solved frontier node is skipped. -/
def processBeam (f : List Int → List Nat) (maxExp : Nat) :
    List Node → SearchSt → WinData ⊕ SearchSt
  | [], st => Sum.inr st
  | node :: rest, st =>
    if maxExp ≤ st.expansions then Sum.inr st  -- line 134: break
    else
      let remaining := countRemaining node.board
      if remaining = 0 ∧ node.tray.length = 0 then  -- line 138
        Sum.inl ⟨node.moves, node.score, st.expansions⟩
      else
        processBeam f maxExp rest (expandSlots f maxExp node remaining (f node.board) st)

/-- Statistics record of a solve result (solver.js lines 142-148, 216-221).
`bestScore` is `none` for the JS `-Infinity` (failure with an empty final
beam); `depth` is present only on success.  The wall-clock `timeMs` field is
environment-dependent and is not modelled. -/
structure SolveStats where
  expansionsUsed : Nat
  bestScore : Option Int
  beamWidth : Nat
  depth : Option Nat
deriving DecidableEq, Repr

/-- Tagged result of a solve call (solver.js lines 139-149, 214-222). -/
inductive SolveResult where
  | solvable (winningMoves : List Nat) (stats : SolveStats)
  | unsolvable (stats : SolveStats)
deriving DecidableEq, Repr

/-- The `solvable` flag of the returned object. -/
def SolveResult.isWin : SolveResult → Bool
  | .solvable _ _ => true
  | .unsolvable _ => false

/-- The stats of either result variant. -/
def SolveResult.stats : SolveResult → SolveStats
  | .solvable _ s => s
  | .unsolvable s => s

/-- Failure result, solver.js lines 214-222 (`bestScore` is `beam[0].score`
when the final beam is non-empty, else `-Infinity`, modelled as `none`). -/
def mkUnsolvable (bw : Nat) (beam : List Node) (exps : Nat) : SolveResult :=
  .unsolvable ⟨exps, beam.head?.map Node.score, bw, none⟩

/-- The depth loop of solver.js lines 130-211, with fuel equal to the number
of remaining depth levels (`maxDepth - depth`).  Alongside the result it
returns the trace of frontiers, one entry per depth level actually entered,
so that frontier invariants can be stated. -/
def beamLoop (f : List Int → List Nat) (bw maxExp : Nat) :
    Nat → Nat → List Node → VMap → Nat → List (List Node) →
    SolveResult × List (List Node)
  | 0, _, beam, _, exps, trace => (mkUnsolvable bw beam exps, trace)
  | fuel + 1, depth, beam, visited, exps, trace =>
    if beam.length = 0 then (mkUnsolvable bw beam exps, trace)
    else
      let trace1 := trace ++ [beam]
      match processBeam f maxExp beam ⟨exps, visited, []⟩ with
      | Sum.inl w => (.solvable w.moves ⟨w.expansions, some w.score, bw, some depth⟩, trace1)
      | Sum.inr st =>
        -- lines 208-210: stable sort by score descending, truncate to beamWidth
        let newBeam := (List.insertionSort (fun a b : Node => b.score ≤ a.score) st.candidates).take bw
        beamLoop f bw maxExp fuel (depth + 1) newBeam st.visited st.expansions trace1

/-- Recognized configuration options (solver.js lines 105-108); `none` models
an absent field.  JS `params.x || DEFAULT` also falls back on `0` (falsy). -/
structure Params where
  beamWidth : Option Nat := none
  maxExpansions : Option Nat := none
  maxDepth : Option Nat := none

/-- `params.x || DEFAULT` for a numeric option. -/
def effParam (o : Option Nat) (dflt : Nat) : Nat :=
  match o with
  | none => dflt
  | some n => if n = 0 then dflt else n

/-- Beam search solver, solver.js lines 105-223, returning the result
together with the frontier trace.  The unused `initialRemaining` of line 116
is omitted.  `[...initialBoard]` at line 118 is a value copy. -/
def beamSearchSolveAux (initialBoard : List Int) (getClickableSlots : List Int → List Nat)
    (params : Params) : SolveResult × List (List Node) :=
  let beamWidth := effParam params.beamWidth 100
  let maxExpansions := effParam params.maxExpansions 5000
  let maxDepth := effParam params.maxDepth 200
  let initialNode : Node := ⟨initialBoard, [], 0, [], 0, hashState initialBoard []⟩
  let visited : VMap := [(initialNode.hash, ⟨0, 0⟩)]
  beamLoop getClickableSlots beamWidth maxExpansions maxDepth 0 [initialNode] visited 0 []

/-- `beamSearchSolve` of solver.js lines 105-223. -/
def beamSearchSolve (initialBoard : List Int) (getClickableSlots : List Int → List Nat)
    (params : Params) : SolveResult :=
  (beamSearchSolveAux initialBoard getClickableSlots params).1

/-- The successive frontiers of a solve call, one per depth level entered. -/
def beamSearchFrontiers (initialBoard : List Int) (getClickableSlots : List Int → List Nat)
    (params : Params) : List (List Node) :=
  (beamSearchSolveAux initialBoard getClickableSlots params).2

/-- Public API facade, solver.js lines 228-230. -/
def isSolvable (initialBoardAssignment : List Int) (getClickableSlotIndices : List Int → List Nat)
    (params : Params) : SolveResult :=
  beamSearchSolve initialBoardAssignment getClickableSlotIndices params

/-! ### Spec-side definitions (used to state the claims, never as the code) -/

/-- Number of piece types present in a tray with exactly 2 occurrences. -/
def pairTypeCount (tray : List Int) : Nat :=
  (tray.dedup.filter (fun i => decide (tray.count i = 2))).length

/-- Number of distinct piece types present in `tray` that were not present in
`prevTray`. -/
def newTypeCount (tray prevTray : List Int) : Nat :=
  ((tray.filter (fun i => decide (i ∉ prevTray))).dedup).length

/-- Modelled from the spec: the Heuristic Scorer increment as §4.3 and claim
C1 describe it, with the triple bonus computed from the count of pieces
cleared by the Resolution Engine in this step (divided by 3, floored,
times 100). -/
def scoreStateSpec (clearedCount : Nat) (tray prevTray : List Int)
    (prevRemaining newRemaining : Int) : Int :=
  100 * ((clearedCount / 3 : Nat) : Int)
    + 12 * (pairTypeCount tray : Int)
    - 8 * (newTypeCount tray prevTray : Int)
    - 3 * (tray.length : Int)
    + 5 * (prevRemaining - newRemaining)

/-- Modelled from the spec: replaying a move sequence against a board.  At
each step the chosen position must be in the current `selectablePositions`
of the board and hold a non-empty piece; the piece is removed from the board
and appended to the tray, and the Resolution Engine is applied. -/
def replayMoves (f : List Int → List Nat) :
    List Int → List Int → List Nat → Option (List Int × List Int)
  | board, tray, [] => some (board, tray)
  | board, tray, m :: rest =>
    if m ∈ f board ∧ board.getD m (-1) ≠ -1 then
      replayMoves f (board.set m (-1))
        (resolveTrayTriples (tray ++ [board.getD m (-1)])).tray rest
    else none

/-- A node's move path replays validly from the initial board to exactly the
node's own board and tray. -/
def NodeInv (f : List Int → List Nat) (initialBoard : List Int) (n : Node) : Prop :=
  replayMoves f initialBoard [] n.moves = some (n.board, n.tray)

/-- Candidate `c` arises from `node` by one legal expansion at `slot`: the
slot holds a non-empty piece that is moved to the tray, the tray is resolved,
and the resolved tray fits the capacity (otherwise the candidate is pruned
and never created). -/
def MoveStep (node : Node) (slot : Nat) (c : Node) : Prop :=
  node.board.getD slot (-1) ≠ -1 ∧
  c.board = node.board.set slot (-1) ∧
  c.tray = (resolveTrayTriples (node.tray ++ [node.board.getD slot (-1)])).tray ∧
  c.moves = node.moves ++ [slot] ∧
  c.tray.length ≤ 7

/-- Modelled from the spec §4.2: one clearing pass removes the three
lowest-index (earliest) occurrences of a piece type from the tray.  The shape
forces the three removed occurrences to be the earliest ones (no occurrence
of `a` precedes them) and the type to have total count ≥ 3. -/
inductive ClearPass : List Int → List Int → Int → Prop where
  | mk (a : Int) (u1 u2 u3 v : List Int)
      (h1 : a ∉ u1) (h2 : a ∉ u2) (h3 : a ∉ u3) :
      ClearPass (u1 ++ a :: (u2 ++ a :: (u3 ++ a :: v))) (u1 ++ (u2 ++ (u3 ++ v))) a

/-- Modelled from the spec §4.2: the Resolution Engine relation — repeat
clearing passes until no piece type has count ≥ 3, recording the cleared
types in order. -/
inductive ResolvesTo : List Int → List Int → List Int → Prop where
  | done (t : List Int) (h : ∀ a : Int, t.count a < 3) : ResolvesTo t t []
  | step (t mid final : List Int) (a : Int) (icons : List Int)
      (h : ClearPass t mid a) (hr : ResolvesTo mid final icons) :
      ResolvesTo t final (a :: icons)

/-! ### Heap model

The frame-effect claims are about JS array mutation, so we refine the model
with an explicit store of arrays addressed by references.  Every array
literal / spread in the source allocates a fresh cell; every mutation
(`tray.splice`, `newBoard[slotIdx] = -1`) writes to the cell of the array it
targets.  Consecutive mutations of one freshly allocated array are modelled
as a single write of the final value, which is observationally equivalent in
this single-threaded code. -/

/-- A JS heap of arrays. -/
abbrev Store := List (List Int)

/-- Dereference an array. -/
def storeRead (st : Store) (r : Nat) : List Int :=
  st.getD r []

/-- Allocate a fresh array, returning its reference. -/
def storeAlloc (st : Store) (v : List Int) : Store × Nat :=
  (st ++ [v], st.length)

/-- Overwrite the array at a reference. -/
def storeWrite (st : Store) (r : Nat) (v : List Int) : Store :=
  st.set r v

/-- The store `st2` agrees with `st1` on every reference below `n` and is at
least as long. -/
def StoreExt (n : Nat) (st1 st2 : Store) : Prop :=
  st1.length ≤ st2.length ∧ ∀ i : Nat, i < n → storeRead st2 i = storeRead st1 i

/-- Heap version of `resolveTrayTriples` (solver.js lines 17-54): the
function copies its argument at line 18 and all the splices of lines 40-43
mutate only that copy, whose final value is that of the pure function. -/
def resolveTrayTriplesH (st : Store) (trayRef : Nat) : Store × Nat × Nat × List Int :=
  let t := storeRead st trayRef
  let a := storeAlloc st t
  let res := resolveTrayTriples t
  (storeWrite a.1 a.2 res.tray, a.2, res.clearedCount, res.clearedIcons)

/-- Search node holding its board and tray by reference, as the JS object
does. -/
structure HNode where
  boardRef : Nat
  trayRef : Nat
  score : Int
  moves : List Nat
  depth : Nat
  hash : String

/-- Heap-threaded state of one depth level. -/
structure HSt where
  expansions : Nat
  visited : VMap
  candidates : List HNode
  store : Store

/-- The allocating steps of one expansion (solver.js lines 163-167):
`[...node.board]` allocates the board copy, `newBoard[slotIdx] = -1` writes to
it, `[...node.tray, iconIdx]` allocates the new tray, and the Resolution
Engine allocates and fills its own copy.  Returns the resulting store, the
reference of the new board, and the reference of the resolved tray. -/
def expandAlloc (store : Store) (node : HNode) (slotIdx : Nat) (iconIdx : Int) :
    Store × Nat × Nat :=
  let board := storeRead store node.boardRef
  let ab := storeAlloc store board
  let st2 := storeWrite ab.1 ab.2 (board.set slotIdx (-1))
  let at3 := storeAlloc st2 (storeRead st2 node.trayRef ++ [iconIdx])
  let rr := resolveTrayTriplesH at3.1 at3.2
  (rr.1, ab.2, rr.2.1)

/-- Heap version of `expandSlots` (solver.js lines 155-205): `[...node.board]`
and `[...node.tray, iconIdx]` allocate, `newBoard[slotIdx] = -1` writes to the
fresh board copy. -/
def expandSlotsH (f : List Int → List Nat) (maxExp : Nat) (node : HNode) (remaining : Nat) :
    List Nat → HSt → HSt
  | [], hst => hst
  | slotIdx :: rest, hst =>
    if maxExp ≤ hst.expansions then hst
    else
      let exps1 := hst.expansions + 1
      let board := storeRead hst.store node.boardRef
      let iconIdx := board.getD slotIdx (-1)
      if iconIdx = -1 then
        expandSlotsH f maxExp node remaining rest ⟨exps1, hst.visited, hst.candidates, hst.store⟩
      else
        let ea := expandAlloc hst.store node slotIdx iconIdx
        let st4 := ea.1
        let resTray := storeRead st4 ea.2.2
        if 7 < resTray.length then
          expandSlotsH f maxExp node remaining rest ⟨exps1, hst.visited, hst.candidates, st4⟩
        else
          let newBoard := storeRead st4 ea.2.1
          let newRemaining := countRemaining newBoard
          let newScore := node.score +
            scoreState newBoard resTray (storeRead st4 node.trayRef)
              (remaining : Int) (newRemaining : Int)
          let newMoves := node.moves ++ [slotIdx]
          let newHash := hashState newBoard resTray
          let pruned :=
            match mapGet hst.visited newHash with
            | some e => decide (newScore ≤ e.score) && decide (e.trayLen ≤ resTray.length)
            | none => false
          if pruned then
            expandSlotsH f maxExp node remaining rest ⟨exps1, hst.visited, hst.candidates, st4⟩
          else
            let newNode : HNode := ⟨ea.2.1, ea.2.2, newScore, newMoves, node.depth + 1, newHash⟩
            expandSlotsH f maxExp node remaining rest
              ⟨exps1, mapSet hst.visited newHash ⟨newScore, resTray.length⟩,
               hst.candidates ++ [newNode], st4⟩

/-- Heap version of `processBeam` (solver.js lines 133-206). -/
def processBeamH (f : List Int → List Nat) (maxExp : Nat) :
    List HNode → HSt → (WinData × Store) ⊕ HSt
  | [], hst => Sum.inr hst
  | node :: rest, hst =>
    if maxExp ≤ hst.expansions then Sum.inr hst
    else
      let remaining := countRemaining (storeRead hst.store node.boardRef)
      if remaining = 0 ∧ (storeRead hst.store node.trayRef).length = 0 then
        Sum.inl (⟨node.moves, node.score, hst.expansions⟩, hst.store)
      else
        processBeamH f maxExp rest
          (expandSlotsH f maxExp node remaining (f (storeRead hst.store node.boardRef)) hst)

/-- Heap version of the depth loop (solver.js lines 130-211). -/
def beamLoopH (f : List Int → List Nat) (bw maxExp : Nat) :
    Nat → Nat → List HNode → VMap → Nat → Store → SolveResult × Store
  | 0, _, beam, _, exps, store =>
    (.unsolvable ⟨exps, beam.head?.map HNode.score, bw, none⟩, store)
  | fuel + 1, depth, beam, visited, exps, store =>
    if beam.length = 0 then (.unsolvable ⟨exps, beam.head?.map HNode.score, bw, none⟩, store)
    else
      match processBeamH f maxExp beam ⟨exps, visited, [], store⟩ with
      | Sum.inl w => (.solvable w.1.moves ⟨w.1.expansions, some w.1.score, bw, some depth⟩, w.2)
      | Sum.inr hst =>
        let newBeam :=
          (List.insertionSort (fun a b : HNode => b.score ≤ a.score) hst.candidates).take bw
        beamLoopH f bw maxExp fuel (depth + 1) newBeam hst.visited hst.expansions hst.store

/-- Heap version of `beamSearchSolve`: the caller's `initialBoard` array is
passed by reference; line 116 and line 123 only read it, line 118 copies it
into a freshly allocated array (`[...initialBoard]`), and the initial `[]`
tray is a fresh literal. -/
def beamSearchSolveH (store : Store) (boardRef : Nat) (f : List Int → List Nat)
    (params : Params) : SolveResult × Store :=
  let beamWidth := effParam params.beamWidth 100
  let maxExpansions := effParam params.maxExpansions 5000
  let maxDepth := effParam params.maxDepth 200
  let initialBoard := storeRead store boardRef
  let ab := storeAlloc store initialBoard
  let at2 := storeAlloc ab.1 []
  let initialNode : HNode := ⟨ab.2, at2.2, 0, [], 0, hashState initialBoard []⟩
  let visited : VMap := [(initialNode.hash, ⟨0, 0⟩)]
  beamLoopH f beamWidth maxExpansions maxDepth 0 [initialNode] visited 0 at2.1

/-- Heap version of the `isSolvable` facade (solver.js lines 228-230). -/
def isSolvableH (store : Store) (boardRef : Nat) (f : List Int → List Nat)
    (params : Params) : SolveResult × Store :=
  beamSearchSolveH store boardRef f params

/-- The store carried by either outcome of `processBeamH`. -/
def pbStore : (WinData × Store) ⊕ HSt → Store
  | Sum.inl p => p.2
  | Sum.inr hst => hst.store

/-! ### Lemmas about the Resolution Engine -/

lemma removeN_length (icon : Int) :
    ∀ (t : List Int) (n : Nat), n ≤ t.count icon →
      (removeN icon n t).length + n = t.length := by
  intro t
  induction t with
  | nil =>
    intro n hn
    simp only [List.count_nil, Nat.le_zero] at hn
    subst hn
    simp [removeN]
  | cons x xs ih =>
    intro n hn
    cases n with
    | zero => simp [removeN]
    | succ m =>
      by_cases hx : x = icon
      · subst hx
        rw [List.count_cons_self] at hn
        have := ih m (by omega)
        have hu : removeN x (m + 1) (x :: xs) = removeN x m xs := by
          simp [removeN]
        rw [hu, List.length_cons]
        omega
      · rw [List.count_cons_of_ne (Ne.symm hx)] at hn
        have := ih (m + 1) hn
        simp only [removeN, if_neg hx, List.length_cons]
        omega

lemma find?_sorted_min {l : List Int} {p : Int → Bool} {a : Int}
    (hs : List.Sorted (· ≤ ·) l) (h : l.find? p = some a) :
    p a = true ∧ ∀ b ∈ l, p b = true → a ≤ b := by
  induction l with
  | nil => simp [List.find?] at h
  | cons x xs ih =>
    rw [List.find?_cons] at h
    rcases hpx : p x with hf | ht
    · rw [hpx] at h
      have hxs := ih hs.of_cons h
      refine ⟨hxs.1, ?_⟩
      intro b hb hpb
      rcases List.mem_cons.mp hb with rfl | hbxs
      · rw [hpb] at hpx; cases hpx
      · exact hxs.2 b hbxs hpb
    · rw [hpx] at h
      injection h with h2
      subst h2
      refine ⟨hpx, ?_⟩
      intro b hb _
      rcases List.mem_cons.mp hb with rfl | hbxs
      · exact le_refl _
      · exact (List.sorted_cons.mp hs).1 b hbxs

lemma mem_sortedIcons {t : List Int} {b : Int} (hb : b ∈ t) :
    b ∈ List.insertionSort (· ≤ ·) t.dedup :=
  (List.perm_insertionSort (· ≤ ·) t.dedup).mem_iff.mpr (List.mem_dedup.mpr hb)

lemma findTriple_some {t : List Int} {a : Int} (h : findTriple t = some a) :
    3 ≤ t.count a ∧ ∀ b : Int, 3 ≤ t.count b → a ≤ b := by
  have hs : List.Sorted (· ≤ ·) (List.insertionSort (· ≤ ·) t.dedup) :=
    List.sorted_insertionSort (· ≤ ·) t.dedup
  have hm := find?_sorted_min hs h
  refine ⟨of_decide_eq_true hm.1, ?_⟩
  intro b hcb
  have hbmem : b ∈ t := List.count_pos_iff.mp (by omega)
  exact hm.2 b (mem_sortedIcons hbmem) (decide_eq_true hcb)

lemma findTriple_none {t : List Int} (h : findTriple t = none) :
    ∀ b : Int, t.count b < 3 := by
  intro b
  by_contra hc
  have hcb : 3 ≤ t.count b := by omega
  have hbmem : b ∈ t := List.count_pos_iff.mp (by omega)
  have := List.find?_eq_none.mp h b (mem_sortedIcons hbmem)
  exact this (decide_eq_true hcb)

lemma resolveGo_clearedCount (fuel : Nat) :
    ∀ t : List Int, (resolveGo fuel t).clearedCount =
      3 * (resolveGo fuel t).clearedIcons.length := by
  induction fuel with
  | zero => intro t; simp [resolveGo]
  | succ m ih =>
    intro t
    simp only [resolveGo]
    cases h : findTriple t with
    | none => simp
    | some icon =>
      simp only [List.length_cons]
      rw [ih (removeN icon 3 t)]
      ring

lemma resolveGo_length (fuel : Nat) :
    ∀ t : List Int, (resolveGo fuel t).tray.length + (resolveGo fuel t).clearedCount =
      t.length := by
  induction fuel with
  | zero => intro t; simp [resolveGo]
  | succ m ih =>
    intro t
    simp only [resolveGo]
    cases h : findTriple t with
    | none => simp
    | some icon =>
      have hcnt := (findTriple_some h).1
      have hrem := removeN_length icon t 3 hcnt
      have := ih (removeN icon 3 t)
      simp only []
      omega

lemma resolveGo_noTriple (fuel : Nat) :
    ∀ t : List Int, t.length ≤ fuel → ∀ b : Int, (resolveGo fuel t).tray.count b < 3 := by
  induction fuel with
  | zero =>
    intro t ht b
    have : t = [] := List.length_eq_zero.mp (by omega)
    subst this
    simp [resolveGo]
  | succ m ih =>
    intro t ht b
    simp only [resolveGo]
    cases h : findTriple t with
    | none => exact findTriple_none h b
    | some icon =>
      have hcnt := (findTriple_some h).1
      have hclen := List.count_le_length icon t
      have hrem := removeN_length icon t 3 hcnt
      exact ih (removeN icon 3 t) (by omega) b

lemma removeN_succ_decomp {a : Int} :
    ∀ {t : List Int}, a ∈ t →
      ∃ u v, t = u ++ a :: v ∧ a ∉ u ∧ ∀ n, removeN a (n + 1) t = u ++ removeN a n v := by
  intro t
  induction t with
  | nil => intro h; cases h
  | cons x xs ih =>
    intro h
    by_cases hx : x = a
    · subst hx
      exact ⟨[], xs, rfl, by simp, fun n => by simp [removeN]⟩
    · have hxs : a ∈ xs := by
        rcases List.mem_cons.mp h with h2 | h2
        · exact absurd h2.symm hx
        · exact h2
      obtain ⟨u, v, hu, hnu, hrem⟩ := ih hxs
      refine ⟨x :: u, v, by simp [hu], ?_, ?_⟩
      · simp only [List.mem_cons, not_or]
        exact ⟨fun h2 => hx h2.symm, hnu⟩
      · intro n
        simp only [removeN, if_neg hx, hrem n, List.cons_append]

lemma clearPass_removeN {t : List Int} {a : Int} (h : 3 ≤ t.count a) :
    ClearPass t (removeN a 3 t) a := by
  have h1 : a ∈ t := List.count_pos_iff.mp (by omega)
  obtain ⟨u1, v1, ht1, hnu1, hr1⟩ := removeN_succ_decomp h1
  have hcv1 : 2 ≤ v1.count a := by
    have : t.count a = u1.count a + (v1.count a + 1) := by
      rw [ht1]; simp [List.count_append, List.count_cons]
    have hz : u1.count a = 0 := List.count_eq_zero_of_not_mem hnu1
    omega
  have h2 : a ∈ v1 := List.count_pos_iff.mp (by omega)
  obtain ⟨u2, v2, hv1, hnu2, hr2⟩ := removeN_succ_decomp h2
  have hcv2 : 1 ≤ v2.count a := by
    have : v1.count a = u2.count a + (v2.count a + 1) := by
      rw [hv1]; simp [List.count_append, List.count_cons]
    have hz : u2.count a = 0 := List.count_eq_zero_of_not_mem hnu2
    omega
  have h3 : a ∈ v2 := List.count_pos_iff.mp (by omega)
  obtain ⟨u3, v3, hv2, hnu3, hr3⟩ := removeN_succ_decomp h3
  have e3 : removeN a 3 t = u1 ++ removeN a 2 v1 := by simpa using hr1 2
  have e2 : removeN a 2 v1 = u2 ++ removeN a 1 v2 := by simpa using hr2 1
  have e1 : removeN a 1 v2 = u3 ++ removeN a 0 v3 := by simpa using hr3 0
  have e0 : removeN a 0 v3 = v3 := by
    cases v3 <;> simp [removeN]
  have hfin : removeN a 3 t = u1 ++ (u2 ++ (u3 ++ v3)) := by
    rw [e3, e2, e1, e0]
  have hshape : t = u1 ++ a :: (u2 ++ a :: (u3 ++ a :: v3)) := by
    rw [ht1, hv1, hv2]
  rw [hfin, hshape]
  exact ClearPass.mk a u1 u2 u3 v3 hnu1 hnu2 hnu3

lemma resolveGo_resolvesTo (fuel : Nat) :
    ∀ t : List Int, t.length ≤ fuel →
      ResolvesTo t (resolveGo fuel t).tray (resolveGo fuel t).clearedIcons := by
  induction fuel with
  | zero =>
    intro t ht
    have : t = [] := List.length_eq_zero.mp (by omega)
    subst this
    exact ResolvesTo.done [] (by simp)
  | succ m ih =>
    intro t ht
    simp only [resolveGo]
    cases h : findTriple t with
    | none => exact ResolvesTo.done t (findTriple_none h)
    | some icon =>
      have hcnt := (findTriple_some h).1
      have hclen := List.count_le_length icon t
      have hrem := removeN_length icon t 3 hcnt
      exact ResolvesTo.step t (removeN icon 3 t) _ icon _
        (clearPass_removeN hcnt) (ih (removeN icon 3 t) (by omega))

lemma clearPass_length {t t1 : List Int} {a : Int} (h : ClearPass t t1 a) :
    t1.length + 3 = t.length := by
  cases h with
  | mk a u1 u2 u3 v h1 h2 h3 =>
    simp only [List.length_append, List.length_cons]
    omega

/-! ### Claim theorems: Resolution Engine -/

/-- C6: whenever some piece type qualifies (count ≥ 3), the type cleared by
the first pass of the Resolution Engine is the qualifying type with the
smallest piece-type identifier value; in particular for a tray where both
type 0 and type 2 have count 3, type 0 is cleared first even though type 2
appears first positionally. -/
theorem resolveTrayTriples_clears_smallest_type :
    (∀ (t : List Int) (a : Int), 3 ≤ t.count a →
      ∃ m rest, (resolveTrayTriples t).clearedIcons = m :: rest ∧
        3 ≤ t.count m ∧ ∀ b : Int, 3 ≤ t.count b → m ≤ b) ∧
    (resolveTrayTriples [2, 0, 2, 0, 2, 0]).clearedIcons = [0, 2] := by
  constructor
  · intro t a ha
    have hlen : 3 ≤ t.length := le_trans ha (List.count_le_length a t)
    obtain ⟨n, hn⟩ : ∃ n, t.length = n + 1 := ⟨t.length - 1, by omega⟩
    rw [resolveTrayTriples, hn]
    simp only [resolveGo]
    cases h : findTriple t with
    | none => exact absurd ha (by have := findTriple_none h a; omega)
    | some m =>
      exact ⟨m, _, rfl, (findTriple_some h).1, (findTriple_some h).2⟩
  · decide

/-- Witness for the tie-break theorem at the tray [2,0,2,0,2,0]. -/
theorem resolveTrayTriples_clears_smallest_type_witness :
    3 ≤ ([2, 0, 2, 0, 2, 0] : List Int).count 2 ∧
    ∃ m rest, (resolveTrayTriples [2, 0, 2, 0, 2, 0]).clearedIcons = m :: rest ∧
      3 ≤ ([2, 0, 2, 0, 2, 0] : List Int).count m ∧
      ∀ b : Int, 3 ≤ ([2, 0, 2, 0, 2, 0] : List Int).count b → m ≤ b :=
  ⟨by decide, resolveTrayTriples_clears_smallest_type.1 [2, 0, 2, 0, 2, 0] 2 (by decide)⟩

/-- C7 counterexample: the claim asserts that [A,B,A,B,A,B] is returned
unchanged, but with A = 0 and B = 1 each type has count 3, so the engine
clears both types and returns an empty tray with 6 pieces cleared. -/
theorem resolveTrayTriples_alternating_not_unchanged :
    (resolveTrayTriples [0, 1, 0, 1, 0, 1]).tray ≠ [0, 1, 0, 1, 0, 1] ∧
    resolveTrayTriples [0, 1, 0, 1, 0, 1] =
      ⟨[], 6, [0, 1]⟩ := by
  constructor
  · decide
  · decide

/-- C7 (amended): the Resolution Engine repeatedly removes the three
lowest-index occurrences of a piece type with count ≥ 3 until no type
qualifies (the `ResolvesTo` relation), returning the resulting tray, the
total cleared count, and the sequence of cleared types; [A,A,A] yields the
empty tray with 3 cleared and cleared types [A]; [A,B,A,B,A,B] — where each
type has count 3 — yields the empty tray with 6 cleared and cleared types
[A,B]; and [A,A,A,A] yields [A]. -/
theorem resolveTrayTriples_spec :
    (∀ t : List Int,
      ResolvesTo t (resolveTrayTriples t).tray (resolveTrayTriples t).clearedIcons ∧
      (resolveTrayTriples t).clearedCount = 3 * (resolveTrayTriples t).clearedIcons.length) ∧
    resolveTrayTriples [0, 0, 0] = ⟨[], 3, [0]⟩ ∧
    resolveTrayTriples [0, 1, 0, 1, 0, 1] = ⟨[], 6, [0, 1]⟩ ∧
    resolveTrayTriples [0, 0, 0, 0] = ⟨[0], 3, [0]⟩ := by
  refine ⟨?_, by decide, by decide, by decide⟩
  intro t
  exact ⟨resolveGo_resolvesTo t.length t (le_refl _),
    resolveGo_clearedCount t.length t⟩

/-- C8: the Resolution Engine terminates — each acting pass removes exactly
three entries, so for an input of length `len` at most ⌊len/3⌋ passes occur
(the tray length plus the cleared count reconstructs the input length, and
the cleared count is three per pass); and it does not modify the input tray
array (heap model: the store below any fresh allocation is untouched). -/
theorem resolveTrayTriples_terminates :
    (∀ (t t1 : List Int) (a : Int), ClearPass t t1 a → t1.length + 3 = t.length) ∧
    (∀ t : List Int,
      (resolveTrayTriples t).tray.length + (resolveTrayTriples t).clearedCount = t.length ∧
      (resolveTrayTriples t).clearedCount = 3 * (resolveTrayTriples t).clearedIcons.length ∧
      (resolveTrayTriples t).clearedIcons.length ≤ t.length / 3) ∧
    (∀ (st : Store) (r i : Nat), i < st.length →
      storeRead (resolveTrayTriplesH st r).1 i = storeRead st i) := by
  refine ⟨fun t t1 a h => clearPass_length h, ?_, ?_⟩
  · intro t
    have h1 := resolveGo_length t.length t
    have h2 := resolveGo_clearedCount t.length t
    refine ⟨h1, h2, ?_⟩
    show (resolveGo t.length t).clearedIcons.length ≤ t.length / 3
    omega
  · intro st r i hi
    simp only [resolveTrayTriplesH, storeAlloc, storeWrite, storeRead,
      List.getD_eq_getElem?_getD]
    rw [List.getElem?_set_ne (by omega), List.getElem?_append]
    simp [hi]

/-- Witness for the termination theorem: a concrete clearing pass on [0,0,0],
the bound at the tray [0,0,0,0], and the heap frame at a one-cell store. -/
theorem resolveTrayTriples_terminates_witness :
    (([] : List Int).length + 3 = ([0, 0, 0] : List Int).length) ∧
    ((resolveTrayTriples [0, 0, 0, 0]).tray.length +
        (resolveTrayTriples [0, 0, 0, 0]).clearedCount = 4 ∧
      (resolveTrayTriples [0, 0, 0, 0]).clearedCount =
        3 * (resolveTrayTriples [0, 0, 0, 0]).clearedIcons.length ∧
      (resolveTrayTriples [0, 0, 0, 0]).clearedIcons.length ≤ 4 / 3) ∧
    (0 < ([[5, 5, 5]] : Store).length ∧
      storeRead (resolveTrayTriplesH [[5, 5, 5]] 0).1 0 = storeRead [[5, 5, 5]] 0) :=
  ⟨resolveTrayTriples_terminates.1 [0, 0, 0] [] 0
      (ClearPass.mk 0 [] [] [] [] (by simp) (by simp) (by simp)),
    resolveTrayTriples_terminates.2.1 [0, 0, 0, 0],
    by decide,
    resolveTrayTriples_terminates.2.2 [[5, 5, 5]] 0 0 (by decide)⟩

/-! ### Lemmas and claim theorems: Heuristic Scorer -/

lemma resolveTray_len_cc (t : List Int) :
    (resolveTrayTriples t).tray.length + (resolveTrayTriples t).clearedCount = t.length ∧
    (resolveTrayTriples t).clearedCount = 3 * (resolveTrayTriples t).clearedIcons.length :=
  ⟨resolveGo_length t.length t, resolveGo_clearedCount t.length t⟩

/-- C1 counterexample: at the move expansion that completes the [0,0,0] game
(tray before the move [0,0], picked piece 0, the Resolution Engine clears 3
pieces) the code adds an increment of 5, while the claimed formula — which
gives +100 per floor(clearedCount/3) — yields 105.  The code computes its
triple bonus from the pre-move tray length minus the post-resolution tray
length, which is one less than the cleared count. -/
theorem scoreState_spec_mismatch :
    (resolveTrayTriples ([0, 0] ++ [0])).clearedCount = 3 ∧
    scoreState [-1, -1, -1] (resolveTrayTriples ([0, 0] ++ [0])).tray [0, 0] 1 0 = 5 ∧
    scoreStateSpec (resolveTrayTriples ([0, 0] ++ [0])).clearedCount
      (resolveTrayTriples ([0, 0] ++ [0])).tray [0, 0] 1 0 = 105 ∧
    (5 : Int) ≠ 105 := by
  refine ⟨by decide, by decide, by decide, by decide⟩

/-- C1 (amended): for every move expansion (tray before the move `prevTray`,
picked piece `icon`, post-move tray obtained by resolving
`prevTray ++ [icon]`), the increment `scoreState` adds is the sum of: a
triple bonus of 100·(k−1) when k ≥ 2 triples were cleared in this step and 0
when k ≤ 1 (because the code measures the pre-move tray length minus the
post-resolution tray length, which is 3k−1, and gates it at ≥ 3); +12 per
piece type with exactly 2 occurrences in the post-move tray; −8 per distinct
piece type in the post-move tray not present before the move; −3 times the
resulting tray length; and +5 times (remaining before − remaining after). -/
theorem scoreState_expansion_formula (board prevTray : List Int) (icon pr nr : Int) :
    scoreState board (resolveTrayTriples (prevTray ++ [icon])).tray prevTray pr nr =
      (if 2 ≤ (resolveTrayTriples (prevTray ++ [icon])).clearedIcons.length then
        100 * (((resolveTrayTriples (prevTray ++ [icon])).clearedIcons.length : Int) - 1)
      else 0)
      + 12 * (pairTypeCount (resolveTrayTriples (prevTray ++ [icon])).tray : Int)
      - 8 * (newTypeCount (resolveTrayTriples (prevTray ++ [icon])).tray prevTray : Int)
      - 3 * ((resolveTrayTriples (prevTray ++ [icon])).tray.length : Int)
      + 5 * (pr - nr) := by
  obtain ⟨hlen, hcc⟩ := resolveTray_len_cc (prevTray ++ [icon])
  simp only [List.length_append, List.length_singleton] at hlen
  have hdiff : (prevTray.length : Int) -
      ((resolveTrayTriples (prevTray ++ [icon])).tray.length : Int) =
      3 * ((resolveTrayTriples (prevTray ++ [icon])).clearedIcons.length : Int) - 1 := by
    omega
  simp only [scoreState, pairTypeCount, newTypeCount]
  rw [hdiff]
  by_cases hk : 2 ≤ (resolveTrayTriples (prevTray ++ [icon])).clearedIcons.length
  · rw [if_pos (by omega), if_pos hk]
    have hdv : (3 * ((resolveTrayTriples (prevTray ++ [icon])).clearedIcons.length : Int) - 1)
        / 3 = ((resolveTrayTriples (prevTray ++ [icon])).clearedIcons.length : Int) - 1 := by
      omega
    rw [hdv]
    ring
  · rw [if_neg (by omega), if_neg hk]
    ring

/-! ### Claim theorems: end-to-end scenario -/

/-- C2 counterexample: for board [0,0,0] with the all-positions collaborator
and the default configuration, the solver does return Solvable with the
moves [0,1,2], but `stats.bestScore` is 10, not at least 100 — the single
triple clear earns no +100 bonus (see the C1 theorems). -/
theorem isSolvable_triple_board_bestScore_low :
    isSolvable [0, 0, 0] (fun b => List.range b.length) {} =
      .solvable [0, 1, 2] ⟨21, some 10, 100, some 3⟩ ∧
    ¬ (100 ≤ (10 : Int)) := by
  exact ⟨by decide, by decide⟩

/-- C2 (amended): for board [0,0,0] with the all-positions collaborator and
the default configuration, `isSolvable` returns Solvable with `winningMoves`
of length 3 covering positions {0,1,2} in some order, and `stats.bestScore`
equal to 10. -/
theorem isSolvable_triple_board :
    ∃ moves stats, isSolvable [0, 0, 0] (fun b => List.range b.length) {} =
        .solvable moves stats ∧
      moves.length = 3 ∧ moves.Perm [0, 1, 2] ∧ stats.bestScore = some 10 := by
  refine ⟨[0, 1, 2], ⟨21, some 10, 100, some 3⟩, by decide, by decide, by decide, by decide⟩

/-! ### Lemmas and claim theorems: solved-node recognition (depth loop) -/

lemma processBeam_solved_head (f : List Int → List Nat) (maxExp : Nat) (node : Node)
    (rest : List Node) (st : SearchSt) (h1 : st.expansions < maxExp)
    (h2 : countRemaining node.board = 0) (h3 : node.tray.length = 0) :
    processBeam f maxExp (node :: rest) st =
      Sum.inl ⟨node.moves, node.score, st.expansions⟩ := by
  simp only [processBeam]
  rw [if_neg (by omega), if_pos ⟨h2, h3⟩]

/-- C5 counterexample: with board [0,0,0], the all-positions collaborator and
configuration {beamWidth 100, maxExpansions 21, maxDepth 200}, the frontier
at depth 3 contains a solved node (board cleared, tray empty), yet the search
returns Unsolvable: the per-node budget check at line 134 precedes the
win-condition check at line 138, so with the budget already consumed the
solved node is never recognized. -/
theorem solved_node_skipped_when_budget_exhausted :
    ((beamSearchFrontiers [0, 0, 0] (fun b => List.range b.length)
        ⟨some 100, some 21, some 200⟩).getD 3 []).any
      (fun n => decide (countRemaining n.board = 0) && decide (n.tray.length = 0)) = true ∧
    (beamSearchSolve [0, 0, 0] (fun b => List.range b.length)
        ⟨some 100, some 21, some 200⟩).isWin = false := by
  exact ⟨by decide, by decide⟩

/-- C5 (amended): if the first node of the current frontier is solved AND the
expansion budget is not yet exhausted, the depth iteration terminates
successfully at that depth and returns that node's move path; the solved
check happens before any expansion of that node, but after the budget check,
so it is not independent of the budget already consumed. -/
theorem beamLoop_returns_solved_head (f : List Int → List Nat) (bw maxExp fuel depth : Nat)
    (node : Node) (rest : List Node) (visited : VMap) (exps : Nat)
    (trace : List (List Node)) (h1 : exps < maxExp) (h2 : countRemaining node.board = 0)
    (h3 : node.tray.length = 0) :
    beamLoop f bw maxExp (fuel + 1) depth (node :: rest) visited exps trace =
      (.solvable node.moves ⟨exps, some node.score, bw, some depth⟩,
       trace ++ [node :: rest]) := by
  simp only [beamLoop]
  rw [if_neg (by simp), processBeam_solved_head f maxExp node rest ⟨exps, visited, []⟩ h1 h2 h3]

/-- Witness for the solved-head theorem at a concrete one-node frontier. -/
theorem beamLoop_returns_solved_head_witness :
    ((0 : Nat) < 5 ∧ countRemaining [-1] = 0 ∧ ([] : List Int).length = 0) ∧
    beamLoop (fun _ => []) 2 5 1 0 [⟨[-1], [], 7, [4], 1, "h"⟩] [] 0 [] =
      (.solvable [4] ⟨0, some 7, 2, some 0⟩, [[⟨[-1], [], 7, [4], 1, "h"⟩]]) :=
  ⟨⟨by decide, by decide, by decide⟩,
    beamLoop_returns_solved_head (fun _ => []) 2 5 0 0 ⟨[-1], [], 7, [4], 1, "h"⟩ [] [] 0 []
      (by decide) (by decide) (by decide)⟩

/-! ### Lemmas and claim theorems: budget monotonicity -/

lemma beamLoop_fuel_succ (f : List Int → List Nat) (bw me : Nat) :
    ∀ (fuel depth : Nat) (beam : List Node) (visited : VMap) (exps : Nat)
      (trace : List (List Node)) (m : List Nat) (s : SolveStats) (tr : List (List Node)),
      beamLoop f bw me fuel depth beam visited exps trace = (.solvable m s, tr) →
      beamLoop f bw me (fuel + 1) depth beam visited exps trace = (.solvable m s, tr) := by
  intro fuel
  induction fuel with
  | zero =>
    intro depth beam visited exps trace m s tr h
    simp only [beamLoop, mkUnsolvable, Prod.mk.injEq] at h
    exact absurd h.1 (by simp)
  | succ n ih =>
    intro depth beam visited exps trace m s tr h
    rw [beamLoop] at h
    rw [beamLoop]
    by_cases hb : beam.length = 0
    · rw [if_pos hb] at h
      simp only [mkUnsolvable, Prod.mk.injEq] at h
      exact absurd h.1 (by simp)
    · rw [if_neg hb] at h
      rw [if_neg hb]
      cases hpb : processBeam f me beam ⟨exps, visited, []⟩ with
      | inl w =>
        rw [hpb] at h
        exact h
      | inr st =>
        rw [hpb] at h
        exact ih (depth + 1) _ st.visited st.expansions _ m s tr h

lemma beamLoop_fuel_mono (f : List Int → List Nat) (bw me : Nat)
    (n n2 depth : Nat) (beam : List Node) (visited : VMap) (exps : Nat)
    (trace : List (List Node)) (m : List Nat) (s : SolveStats) (tr : List (List Node))
    (hle : n ≤ n2)
    (h : beamLoop f bw me n depth beam visited exps trace = (.solvable m s, tr)) :
    beamLoop f bw me n2 depth beam visited exps trace = (.solvable m s, tr) := by
  obtain ⟨d, rfl⟩ : ∃ d, n2 = n + d := ⟨n2 - n, by omega⟩
  clear hle
  induction d with
  | zero => exact h
  | succ k ih =>
    exact beamLoop_fuel_succ f bw me (n + k) depth beam visited exps trace m s tr ih

lemma expandSlots_exps_le (f : List Int → List Nat) (me : Nat) (node : Node) (rem : Nat) :
    ∀ (slots : List Nat) (st : SearchSt),
      st.expansions ≤ (expandSlots f me node rem slots st).expansions := by
  intro slots
  induction slots with
  | nil =>
    intro st
    exact Nat.le_refl _
  | cons slot rest ih =>
    intro st
    simp only [expandSlots]
    split
    · exact Nat.le_refl _
    · split
      · refine le_trans ?_ (ih _)
        exact Nat.le_succ _
      · split
        · refine le_trans ?_ (ih _)
          exact Nat.le_succ _
        · split
          · refine le_trans ?_ (ih _)
            exact Nat.le_succ _
          · refine le_trans ?_ (ih _)
            exact Nat.le_succ _

lemma processBeam_exps_le_inl (f : List Int → List Nat) (me : Nat) :
    ∀ (nodes : List Node) (st : SearchSt) (w : WinData),
      processBeam f me nodes st = Sum.inl w → st.expansions ≤ w.expansions := by
  intro nodes
  induction nodes with
  | nil =>
    intro st w h
    simp only [processBeam] at h
    exact Sum.noConfusion h
  | cons node rest ih =>
    intro st w h
    simp only [processBeam] at h
    split at h
    · exact Sum.noConfusion h
    · split at h
      · injection h with h2
        rw [← h2]
      · exact le_trans (expandSlots_exps_le f me node _ (f node.board) st) (ih _ w h)

lemma processBeam_exps_le_inr (f : List Int → List Nat) (me : Nat) :
    ∀ (nodes : List Node) (st st2 : SearchSt),
      processBeam f me nodes st = Sum.inr st2 → st.expansions ≤ st2.expansions := by
  intro nodes
  induction nodes with
  | nil =>
    intro st st2 h
    simp only [processBeam] at h
    injection h with h2
    rw [← h2]
  | cons node rest ih =>
    intro st st2 h
    simp only [processBeam] at h
    split at h
    · injection h with h2
      rw [← h2]
    · split at h
      · exact Sum.noConfusion h
      · exact le_trans (expandSlots_exps_le f me node _ (f node.board) st) (ih _ st2 h)

lemma processBeam_win_lt (f : List Int → List Nat) (me : Nat) :
    ∀ (nodes : List Node) (st : SearchSt) (w : WinData),
      processBeam f me nodes st = Sum.inl w → w.expansions < me := by
  intro nodes
  induction nodes with
  | nil =>
    intro st w h
    simp only [processBeam] at h
    exact Sum.noConfusion h
  | cons node rest ih =>
    intro st w h
    simp only [processBeam] at h
    split at h
    · exact Sum.noConfusion h
    · rename_i hb
      split at h
      · injection h with h2
        rw [← h2]
        show st.expansions < me
        omega
      · exact ih _ w h

lemma processBeam_stuck (f : List Int → List Nat) (me : Nat) (nodes : List Node)
    (st : SearchSt) (h : me ≤ st.expansions) :
    processBeam f me nodes st = Sum.inr st := by
  cases nodes with
  | nil => simp only [processBeam]
  | cons node rest =>
    simp only [processBeam]
    rw [if_pos h]

lemma beamLoop_stuck_not_solvable (f : List Int → List Nat) (bw me : Nat) :
    ∀ (fuel depth : Nat) (beam : List Node) (visited : VMap) (exps : Nat)
      (trace : List (List Node)) (m : List Nat) (s : SolveStats) (tr : List (List Node)),
      me ≤ exps →
      beamLoop f bw me fuel depth beam visited exps trace = (.solvable m s, tr) →
      False := by
  intro fuel
  induction fuel with
  | zero =>
    intro depth beam visited exps trace m s tr hle h
    simp only [beamLoop, mkUnsolvable, Prod.mk.injEq] at h
    exact absurd h.1 (by simp)
  | succ n ih =>
    intro depth beam visited exps trace m s tr hle h
    rw [beamLoop] at h
    by_cases hb : beam.length = 0
    · rw [if_pos hb] at h
      simp only [mkUnsolvable, Prod.mk.injEq] at h
      exact absurd h.1 (by simp)
    · rw [if_neg hb] at h
      rw [processBeam_stuck f me beam ⟨exps, visited, []⟩ hle] at h
      exact ih (depth + 1) _ visited exps _ m s tr hle h

lemma expandSlots_budget_mono (f : List Int → List Nat) (node : Node) (rem : Nat)
    {me me2 : Nat} (hm : me ≤ me2) :
    ∀ (slots : List Nat) (st : SearchSt),
      (expandSlots f me node rem slots st).expansions < me →
      expandSlots f me2 node rem slots st = expandSlots f me node rem slots st := by
  intro slots
  induction slots with
  | nil =>
    intro st _
    rfl
  | cons slot rest ih =>
    intro st h
    simp only [expandSlots] at h ⊢
    by_cases hb : me ≤ st.expansions
    · rw [if_pos hb] at h
      exact absurd h (by omega)
    · have hb2 : ¬ me2 ≤ st.expansions := by omega
      rw [if_neg hb] at h
      rw [if_neg hb2, if_neg hb]
      by_cases hicon : node.board.getD slot (-1) = -1
      · rw [if_pos hicon] at h
        rw [if_pos hicon, if_pos hicon]
        exact ih _ h
      · rw [if_neg hicon] at h
        rw [if_neg hicon, if_neg hicon]
        by_cases hcap :
            7 < (resolveTrayTriples (node.tray ++ [node.board.getD slot (-1)])).tray.length
        · rw [if_pos hcap] at h
          rw [if_pos hcap, if_pos hcap]
          exact ih _ h
        · rw [if_neg hcap] at h
          rw [if_neg hcap, if_neg hcap]
          split
          · rename_i hpr
            rw [if_pos hpr] at h
            exact ih _ h
          · rename_i hpr
            rw [if_neg hpr] at h
            exact ih _ h

lemma processBeam_budget_mono (f : List Int → List Nat) {me me2 : Nat} (hm : me ≤ me2) :
    ∀ (nodes : List Node) (st : SearchSt),
      (∀ w, processBeam f me nodes st = Sum.inl w → w.expansions < me →
        processBeam f me2 nodes st = Sum.inl w) ∧
      (∀ st2, processBeam f me nodes st = Sum.inr st2 → st2.expansions < me →
        processBeam f me2 nodes st = Sum.inr st2) := by
  intro nodes
  induction nodes with
  | nil =>
    intro st
    constructor
    · intro w h _
      simp only [processBeam] at h
      exact Sum.noConfusion h
    · intro st2 h _
      simp only [processBeam] at h ⊢
      exact h
  | cons node rest ih =>
    intro st
    constructor
    · intro w h hlt
      simp only [processBeam] at h ⊢
      by_cases hb : me ≤ st.expansions
      · rw [if_pos hb] at h
        exact Sum.noConfusion h
      · rw [if_neg hb] at h
        rw [if_neg (show ¬ me2 ≤ st.expansions by omega)]
        by_cases hwin : countRemaining node.board = 0 ∧ node.tray.length = 0
        · rw [if_pos hwin] at h
          rw [if_pos hwin]
          exact h
        · rw [if_neg hwin] at h
          rw [if_neg hwin]
          have hexp : (expandSlots f me node (countRemaining node.board)
              (f node.board) st).expansions < me :=
            lt_of_le_of_lt (processBeam_exps_le_inl f me rest _ w h) hlt
          rw [expandSlots_budget_mono f node (countRemaining node.board) hm
            (f node.board) st hexp]
          exact (ih _).1 w h hlt
    · intro st2 h hlt
      simp only [processBeam] at h ⊢
      by_cases hb : me ≤ st.expansions
      · rw [if_pos hb] at h
        injection h with h2
        subst h2
        exact absurd hlt (by omega)
      · rw [if_neg hb] at h
        rw [if_neg (show ¬ me2 ≤ st.expansions by omega)]
        by_cases hwin : countRemaining node.board = 0 ∧ node.tray.length = 0
        · rw [if_pos hwin] at h
          exact Sum.noConfusion h
        · rw [if_neg hwin] at h
          rw [if_neg hwin]
          have hexp : (expandSlots f me node (countRemaining node.board)
              (f node.board) st).expansions < me :=
            lt_of_le_of_lt (processBeam_exps_le_inr f me rest _ st2 h) hlt
          rw [expandSlots_budget_mono f node (countRemaining node.board) hm
            (f node.board) st hexp]
          exact (ih _).2 st2 h hlt

lemma beamLoop_budget_mono (f : List Int → List Nat) (bw : Nat) {me me2 : Nat}
    (hm : me ≤ me2) :
    ∀ (fuel depth : Nat) (beam : List Node) (visited : VMap) (exps : Nat)
      (trace : List (List Node)) (m : List Nat) (s : SolveStats) (tr : List (List Node)),
      beamLoop f bw me fuel depth beam visited exps trace = (.solvable m s, tr) →
      beamLoop f bw me2 fuel depth beam visited exps trace = (.solvable m s, tr) := by
  intro fuel
  induction fuel with
  | zero =>
    intro depth beam visited exps trace m s tr h
    simp only [beamLoop, mkUnsolvable, Prod.mk.injEq] at h
    exact absurd h.1 (by simp)
  | succ n ih =>
    intro depth beam visited exps trace m s tr h
    rw [beamLoop] at h
    rw [beamLoop]
    by_cases hb : beam.length = 0
    · rw [if_pos hb] at h
      simp only [mkUnsolvable, Prod.mk.injEq] at h
      exact absurd h.1 (by simp)
    · rw [if_neg hb] at h
      rw [if_neg hb]
      cases hpb : processBeam f me beam ⟨exps, visited, []⟩ with
      | inl w =>
        rw [hpb] at h
        have hlt := processBeam_win_lt f me beam ⟨exps, visited, []⟩ w hpb
        rw [(processBeam_budget_mono f hm beam ⟨exps, visited, []⟩).1 w hpb hlt]
        exact h
      | inr st =>
        rw [hpb] at h
        have hlt : st.expansions < me := by
          by_contra hc
          exact beamLoop_stuck_not_solvable f bw me n (depth + 1) _ st.visited
            st.expansions _ m s tr (by omega) h
        rw [(processBeam_budget_mono f hm beam ⟨exps, visited, []⟩).2 st hpb hlt]
        exact ih (depth + 1) _ st.visited st.expansions _ m s tr h

/-- C4 counterexample: board [0,0,0] with the all-positions collaborator is
Solvable with {beamWidth 1, maxExpansions 21, maxDepth 200} but Unsolvable
with {beamWidth 3, maxExpansions 21, maxDepth 200}: the wider beam expands
more sibling nodes, exhausting the shared expansion budget before the depth
at which the solved node would be recognized. -/
theorem beamWidth_increase_flips_to_unsolvable :
    (isSolvable [0, 0, 0] (fun b => List.range b.length)
        ⟨some 1, some 21, some 200⟩).isWin = true ∧
    (isSolvable [0, 0, 0] (fun b => List.range b.length)
        ⟨some 3, some 21, some 200⟩).isWin = false ∧
    (1 : Nat) < 3 := by
  exact ⟨by decide, by decide, by decide⟩

/-- Increasing `maxDepth` alone (holding `beamWidth` and `maxExpansions`
fixed) preserves a Solvable result unchanged: the per-depth behaviour does
not depend on `maxDepth`, which only bounds the number of depth iterations. -/
theorem maxDepth_increase_preserves_solvable (board : List Int)
    (f : List Int → List Nat) (bwOpt meOpt : Option Nat) (d d2 : Nat)
    (m : List Nat) (s : SolveStats) (hd : 0 < d) (hdd : d ≤ d2)
    (h : isSolvable board f ⟨bwOpt, meOpt, some d⟩ = .solvable m s) :
    isSolvable board f ⟨bwOpt, meOpt, some d2⟩ = .solvable m s := by
  have hed : effParam (some d) 200 = d := by
    simp only [effParam]
    rw [if_neg (by omega)]
  have hed2 : effParam (some d2) 200 = d2 := by
    simp only [effParam]
    rw [if_neg (by omega)]
  simp only [isSolvable, beamSearchSolve, beamSearchSolveAux] at h ⊢
  rw [hed] at h
  rw [hed2]
  have h2 := beamLoop_fuel_mono f (effParam bwOpt 100) (effParam meOpt 5000) d d2 0
    [⟨board, [], 0, [], 0, hashState board []⟩] [(hashState board [], ⟨0, 0⟩)] 0 [] m s
    (beamLoop f (effParam bwOpt 100) (effParam meOpt 5000) d 0
      [⟨board, [], 0, [], 0, hashState board []⟩] [(hashState board [], ⟨0, 0⟩)] 0 []).2
    hdd (by rw [← h])
  rw [h2]

/-! ### Lemmas: path validity of the returned winning moves -/

lemma replayMoves_append_some (f : List Int → List Nat) :
    ∀ (ms : List Nat) (b t b2 t2 : List Int) (m : Nat),
      replayMoves f b t ms = some (b2, t2) →
      replayMoves f b t (ms ++ [m]) =
        if m ∈ f b2 ∧ b2.getD m (-1) ≠ -1 then
          some (b2.set m (-1), (resolveTrayTriples (t2 ++ [b2.getD m (-1)])).tray)
        else none := by
  intro ms
  induction ms with
  | nil =>
    intro b t b2 t2 m h
    simp only [replayMoves] at h
    injection h with h2
    obtain ⟨rfl, rfl⟩ := Prod.mk.injEq .. ▸ Prod.ext_iff.mp h2
    simp only [List.nil_append, replayMoves]
  | cons x xs ih =>
    intro b t b2 t2 m h
    simp only [replayMoves] at h
    simp only [List.cons_append, replayMoves]
    by_cases hx : x ∈ f b ∧ b.getD x (-1) ≠ -1
    · rw [if_pos hx] at h
      rw [if_pos hx]
      exact ih _ _ b2 t2 m h
    · rw [if_neg hx] at h
      cases h

lemma nodeInv_step {f : List Int → List Nat} {b0 : List Int} {node c : Node} {slot : Nat}
    (hinv : NodeInv f b0 node) (hslot : slot ∈ f node.board) (hstep : MoveStep node slot c) :
    NodeInv f b0 c := by
  obtain ⟨hicon, hboard, htray, hmoves, _⟩ := hstep
  unfold NodeInv at hinv ⊢
  rw [hmoves, replayMoves_append_some f node.moves b0 [] node.board node.tray slot hinv,
    if_pos ⟨hslot, hicon⟩, hboard, htray]

lemma expandSlots_candidates (f : List Int → List Nat) (maxExp : Nat) (node : Node)
    (remaining : Nat) :
    ∀ (slots : List Nat) (st : SearchSt) (c : Node),
      c ∈ (expandSlots f maxExp node remaining slots st).candidates →
      c ∈ st.candidates ∨ ∃ slot ∈ slots, MoveStep node slot c := by
  intro slots
  induction slots with
  | nil =>
    intro st c hc
    exact Or.inl hc
  | cons slot rest ih =>
    intro st c hc
    simp only [expandSlots] at hc
    have hrest : ∀ st2 : SearchSt, c ∈ (expandSlots f maxExp node remaining rest st2).candidates →
        st2.candidates = st.candidates →
        c ∈ st.candidates ∨ ∃ s ∈ slot :: rest, MoveStep node s c := by
      intro st2 h2 heq
      rcases ih st2 c h2 with h3 | ⟨s, hs, hstep⟩
      · exact Or.inl (heq ▸ h3)
      · exact Or.inr ⟨s, List.mem_cons_of_mem slot hs, hstep⟩
    split at hc
    · exact Or.inl hc
    · split at hc
      · exact hrest _ hc rfl
      · rename_i hbudget hicon
        split at hc
        · exact hrest _ hc rfl
        · rename_i hcap
          split at hc
          · exact hrest _ hc rfl
          · rcases ih _ c hc with h3 | ⟨s, hs, hstep⟩
            · rcases List.mem_append.mp h3 with h4 | h4
              · exact Or.inl h4
              · rcases List.mem_singleton.mp h4 with rfl
                refine Or.inr ⟨slot, List.mem_cons_self slot rest, hicon, rfl, rfl, rfl, ?_⟩
                show (resolveTrayTriples (node.tray ++ [node.board.getD slot (-1)])).tray.length ≤ 7
                omega
            · exact Or.inr ⟨s, List.mem_cons_of_mem slot hs, hstep⟩

lemma processBeam_win (f : List Int → List Nat) (maxExp : Nat) :
    ∀ (nodes : List Node) (st : SearchSt) (w : WinData),
      processBeam f maxExp nodes st = Sum.inl w →
      ∃ node ∈ nodes, countRemaining node.board = 0 ∧ node.tray.length = 0 ∧
        w.moves = node.moves ∧ w.score = node.score := by
  intro nodes
  induction nodes with
  | nil =>
    intro st w h
    simp only [processBeam] at h
    exact Sum.noConfusion h
  | cons node rest ih =>
    intro st w h
    simp only [processBeam] at h
    split at h
    · cases h
    · split at h
      · rename_i hwin
        injection h with h2
        exact ⟨node, List.mem_cons_self node rest, hwin.1, hwin.2, by rw [← h2], by rw [← h2]⟩
      · obtain ⟨n2, hn2, hprops⟩ := ih _ w h
        exact ⟨n2, List.mem_cons_of_mem node hn2, hprops⟩

lemma processBeam_candidates (f : List Int → List Nat) (maxExp : Nat) :
    ∀ (nodes : List Node) (st : SearchSt) (st2 : SearchSt),
      processBeam f maxExp nodes st = Sum.inr st2 →
      ∀ c ∈ st2.candidates, c ∈ st.candidates ∨
        ∃ node ∈ nodes, ∃ slot ∈ f node.board, MoveStep node slot c := by
  intro nodes
  induction nodes with
  | nil =>
    intro st st2 h c hc
    simp only [processBeam] at h
    injection h with h2
    exact Or.inl (h2 ▸ hc)
  | cons node rest ih =>
    intro st st2 h c hc
    simp only [processBeam] at h
    split at h
    · injection h with h2
      exact Or.inl (h2 ▸ hc)
    · split at h
      · cases h
      · rcases ih _ st2 h c hc with h3 | ⟨n2, hn2, slot, hs, hstep⟩
        · rcases expandSlots_candidates f maxExp node _ _ _ c h3 with h4 | ⟨slot, hs, hstep⟩
          · exact Or.inl h4
          · exact Or.inr ⟨node, List.mem_cons_self node rest, slot, hs, hstep⟩
        · exact Or.inr ⟨n2, List.mem_cons_of_mem node hn2, slot, hs, hstep⟩

lemma mem_newBeam {c : Node} {bw : Nat} {l : List Node}
    (hc : c ∈ (List.insertionSort (fun a b : Node => b.score ≤ a.score) l).take bw) :
    c ∈ l :=
  (List.perm_insertionSort (fun a b : Node => b.score ≤ a.score) l).mem_iff.mp
    (List.mem_of_mem_take hc)

lemma beamLoop_solvable_inv (f : List Int → List Nat) (bw me : Nat) (b0 : List Int) :
    ∀ (fuel depth : Nat) (beam : List Node) (visited : VMap) (exps : Nat)
      (trace : List (List Node)) (m : List Nat) (s : SolveStats) (tr : List (List Node)),
      (∀ n ∈ beam, NodeInv f b0 n) →
      beamLoop f bw me fuel depth beam visited exps trace = (.solvable m s, tr) →
      ∃ b t, replayMoves f b0 [] m = some (b, t) ∧
        countRemaining b = 0 ∧ t.length = 0 := by
  intro fuel
  induction fuel with
  | zero =>
    intro depth beam visited exps trace m s tr hbeam h
    simp only [beamLoop, mkUnsolvable, Prod.mk.injEq] at h
    exact absurd h.1 (by simp)
  | succ n ih =>
    intro depth beam visited exps trace m s tr hbeam h
    rw [beamLoop] at h
    by_cases hb : beam.length = 0
    · rw [if_pos hb] at h
      simp only [mkUnsolvable, Prod.mk.injEq] at h
      exact absurd h.1 (by simp)
    · rw [if_neg hb] at h
      cases hpb : processBeam f me beam ⟨exps, visited, []⟩ with
      | inl w =>
        rw [hpb] at h
        obtain ⟨node, hmem, hrem, htray, hwm, _⟩ := processBeam_win f me beam _ w hpb
        have hm : w.moves = m := by
          have h1 := congrArg Prod.fst h
          simp only at h1
          cases h1
          rfl
        exact ⟨node.board, node.tray, by rw [← hm, hwm]; exact hbeam node hmem, hrem, htray⟩
      | inr st =>
        rw [hpb] at h
        refine ih (depth + 1) _ st.visited st.expansions _ m s tr ?_ h
        intro c hc
        rcases processBeam_candidates f me beam _ st hpb c (mem_newBeam hc) with h3 |
          ⟨node, hn, slot, hs, hstep⟩
        · cases h3
        · exact nodeInv_step (hbeam node hn) hs hstep

lemma countRemaining_eq_zero {b : List Int} (h : countRemaining b = 0) :
    ∀ x ∈ b, x = -1 := by
  intro x hx
  have h2 : b.filter (fun x => decide (x ≠ -1)) = [] :=
    List.length_eq_zero.mp h
  have h3 := List.filter_eq_nil_iff.mp h2 x hx
  simpa using h3

/-! ### Claim theorem: path validity -/

/-- C3: whenever the solver returns Solvable, replaying the returned
winningMoves in order against the initial board — at each step the chosen
position is in the current selectable positions and holds a non-empty piece,
the piece is removed from the board and appended to the tray, and the
Resolution Engine is applied — succeeds and ends with a board containing no
non-empty positions and an empty tray. -/
theorem winningMoves_replay_valid (b0 : List Int) (f : List Int → List Nat) (p : Params)
    (m : List Nat) (s : SolveStats) (h : isSolvable b0 f p = .solvable m s) :
    ∃ b t, replayMoves f b0 [] m = some (b, t) ∧ (∀ x ∈ b, x = -1) ∧ t = [] := by
  simp only [isSolvable, beamSearchSolve, beamSearchSolveAux] at h
  have h2 : beamLoop f (effParam p.beamWidth 100) (effParam p.maxExpansions 5000)
      (effParam p.maxDepth 200) 0 [⟨b0, [], 0, [], 0, hashState b0 []⟩]
      [(hashState b0 [], ⟨0, 0⟩)] 0 [] =
      (.solvable m s,
        (beamLoop f (effParam p.beamWidth 100) (effParam p.maxExpansions 5000)
          (effParam p.maxDepth 200) 0 [⟨b0, [], 0, [], 0, hashState b0 []⟩]
          [(hashState b0 [], ⟨0, 0⟩)] 0 []).2) := by
    rw [← h]
  obtain ⟨b, t, hr, hrem, htl⟩ := beamLoop_solvable_inv f (effParam p.beamWidth 100)
    (effParam p.maxExpansions 5000) b0 (effParam p.maxDepth 200) 0
    [⟨b0, [], 0, [], 0, hashState b0 []⟩] [(hashState b0 [], ⟨0, 0⟩)] 0 [] m s _
    (by
      intro n hn
      rcases List.mem_singleton.mp hn with rfl
      rfl) h2
  exact ⟨b, t, hr, countRemaining_eq_zero hrem, List.length_eq_zero.mp htl⟩

/-- Witness for path validity: the winning moves returned for [0,0,0] replay
to the fully cleared board with an empty tray. -/
theorem winningMoves_replay_valid_witness :
    (isSolvable [0, 0, 0] (fun b => List.range b.length) {} =
      .solvable [0, 1, 2] ⟨21, some 10, 100, some 3⟩) ∧
    ∃ b t, replayMoves (fun b => List.range b.length) [0, 0, 0] [] [0, 1, 2] =
        some (b, t) ∧ (∀ x ∈ b, x = -1) ∧ t = [] :=
  ⟨by decide,
    winningMoves_replay_valid [0, 0, 0] (fun b => List.range b.length) {}
      [0, 1, 2] ⟨21, some 10, 100, some 3⟩ (by decide)⟩

/-- Increasing `maxExpansions` alone (holding `beamWidth` and `maxDepth`
fixed) preserves a Solvable result unchanged: the budget is consulted only
at solver.js lines 134 and 156, expansion counts never decrease, and a
Solvable run requires the line-134 comparison at the winning node to be
false, so every budget comparison made during a Solvable run was false and
remains false under a larger budget — the run is replayed identically. -/
theorem maxExpansions_increase_preserves_solvable (board : List Int)
    (f : List Int → List Nat) (bwOpt mdOpt : Option Nat) (e e2 : Nat)
    (m : List Nat) (s : SolveStats) (he : 0 < e) (hee : e ≤ e2)
    (h : isSolvable board f ⟨bwOpt, some e, mdOpt⟩ = .solvable m s) :
    isSolvable board f ⟨bwOpt, some e2, mdOpt⟩ = .solvable m s := by
  have hee1 : effParam (some e) 5000 = e := by
    simp only [effParam]
    rw [if_neg (by omega)]
  have hee2 : effParam (some e2) 5000 = e2 := by
    simp only [effParam]
    rw [if_neg (by omega)]
  simp only [isSolvable, beamSearchSolve, beamSearchSolveAux] at h ⊢
  rw [hee1] at h
  rw [hee2]
  have h2 : beamLoop f (effParam bwOpt 100) e (effParam mdOpt 200) 0
      [⟨board, [], 0, [], 0, hashState board []⟩] [(hashState board [], ⟨0, 0⟩)] 0 [] =
      (.solvable m s,
        (beamLoop f (effParam bwOpt 100) e (effParam mdOpt 200) 0
          [⟨board, [], 0, [], 0, hashState board []⟩]
          [(hashState board [], ⟨0, 0⟩)] 0 []).2) := by
    rw [← h]
  have h3 := beamLoop_budget_mono f (effParam bwOpt 100) hee (effParam mdOpt 200) 0
    [⟨board, [], 0, [], 0, hashState board []⟩] [(hashState board [], ⟨0, 0⟩)] 0 [] m s _ h2
  rw [h3]

/-- C4 (amended): for every initialBoard and fixed deterministic
selectable-positions collaborator, a Solvable result is preserved — with the
identical result — when increasing `maxDepth` alone or `maxExpansions` alone
(each holding the other two parameters fixed); the analogous statement for
`beamWidth`, and hence the claim as stated for all three parameters, is
false, see the counterexample. -/
theorem raising_depth_or_budget_preserves_solvable :
    (∀ (board : List Int) (f : List Int → List Nat) (bwOpt meOpt : Option Nat)
      (d d2 : Nat) (m : List Nat) (s : SolveStats), 0 < d → d ≤ d2 →
      isSolvable board f ⟨bwOpt, meOpt, some d⟩ = .solvable m s →
      isSolvable board f ⟨bwOpt, meOpt, some d2⟩ = .solvable m s) ∧
    (∀ (board : List Int) (f : List Int → List Nat) (bwOpt mdOpt : Option Nat)
      (e e2 : Nat) (m : List Nat) (s : SolveStats), 0 < e → e ≤ e2 →
      isSolvable board f ⟨bwOpt, some e, mdOpt⟩ = .solvable m s →
      isSolvable board f ⟨bwOpt, some e2, mdOpt⟩ = .solvable m s) :=
  ⟨fun board f bwOpt meOpt d d2 m s hd hdd h =>
      maxDepth_increase_preserves_solvable board f bwOpt meOpt d d2 m s hd hdd h,
    fun board f bwOpt mdOpt e e2 m s he hee h =>
      maxExpansions_increase_preserves_solvable board f bwOpt mdOpt e e2 m s he hee h⟩

/-- Witness for both monotone parameters on the [0,0,0] board: raising
maxDepth 4 to 5 and raising maxExpansions 22 to 30 each preserve the
identical Solvable result. -/
theorem raising_depth_or_budget_preserves_solvable_witness :
    (((0 : Nat) < 4 ∧ (4 : Nat) ≤ 5 ∧
        isSolvable [0, 0, 0] (fun b => List.range b.length) ⟨none, none, some 4⟩ =
          .solvable [0, 1, 2] ⟨21, some 10, 100, some 3⟩) ∧
      isSolvable [0, 0, 0] (fun b => List.range b.length) ⟨none, none, some 5⟩ =
        .solvable [0, 1, 2] ⟨21, some 10, 100, some 3⟩) ∧
    (((0 : Nat) < 22 ∧ (22 : Nat) ≤ 30 ∧
        isSolvable [0, 0, 0] (fun b => List.range b.length) ⟨none, some 22, none⟩ =
          .solvable [0, 1, 2] ⟨21, some 10, 100, some 3⟩) ∧
      isSolvable [0, 0, 0] (fun b => List.range b.length) ⟨none, some 30, none⟩ =
        .solvable [0, 1, 2] ⟨21, some 10, 100, some 3⟩) :=
  ⟨⟨⟨by decide, by decide, by decide⟩,
      raising_depth_or_budget_preserves_solvable.1 [0, 0, 0] (fun b => List.range b.length)
        none none 4 5 [0, 1, 2] ⟨21, some 10, 100, some 3⟩ (by decide) (by decide) (by decide)⟩,
    ⟨⟨by decide, by decide, by decide⟩,
      raising_depth_or_budget_preserves_solvable.2 [0, 0, 0] (fun b => List.range b.length)
        none none 22 30 [0, 1, 2] ⟨21, some 10, 100, some 3⟩ (by decide) (by decide) (by decide)⟩⟩

/-! ### Lemmas and claim theorem: tray capacity invariant -/

lemma beamLoop_trace_inv (f : List Int → List Nat) (bw me : Nat) :
    ∀ (fuel depth : Nat) (beam : List Node) (visited : VMap) (exps : Nat)
      (trace : List (List Node)),
      (∀ n ∈ beam, n.tray.length ≤ 7) →
      (∀ fr ∈ trace, ∀ n ∈ fr, n.tray.length ≤ 7) →
      ∀ fr ∈ (beamLoop f bw me fuel depth beam visited exps trace).2,
        ∀ n ∈ fr, n.tray.length ≤ 7 := by
  intro fuel
  induction fuel with
  | zero =>
    intro depth beam visited exps trace hbeam htrace fr hfr n hn
    exact htrace fr hfr n hn
  | succ k ih =>
    intro depth beam visited exps trace hbeam htrace fr hfr n hn
    rw [beamLoop] at hfr
    by_cases hb : beam.length = 0
    · rw [if_pos hb] at hfr
      exact htrace fr hfr n hn
    · rw [if_neg hb] at hfr
      have htrace1 : ∀ fr2 ∈ trace ++ [beam], ∀ n2 ∈ fr2, n2.tray.length ≤ 7 := by
        intro fr2 hfr2 n2 hn2
        rcases List.mem_append.mp hfr2 with h2 | h2
        · exact htrace fr2 h2 n2 hn2
        · rcases List.mem_singleton.mp h2 with rfl
          exact hbeam n2 hn2
      cases hpb : processBeam f me beam ⟨exps, visited, []⟩ with
      | inl w =>
        rw [hpb] at hfr
        exact htrace1 fr hfr n hn
      | inr st =>
        rw [hpb] at hfr
        refine ih (depth + 1) _ st.visited st.expansions _ ?_ htrace1 fr hfr n hn
        intro c hc
        rcases processBeam_candidates f me beam _ st hpb c (mem_newBeam hc) with h3 |
          ⟨node, _, slot, _, hstep⟩
        · cases h3
        · exact hstep.2.2.2.2

/-- C9: every node of every frontier the beam search processes has a tray of
length at most the capacity 7 (an expansion whose post-resolution tray
exceeds 7 is pruned at creation, solver.js lines 170-172, so it never
reaches the candidate list nor the next frontier); and any candidate present
after expansion either was already there or has tray length ≤ 7. -/
theorem frontier_tray_within_capacity :
    (∀ (board : List Int) (f : List Int → List Nat) (p : Params) (fr : List Node) (n : Node),
      fr ∈ beamSearchFrontiers board f p → n ∈ fr → n.tray.length ≤ 7) ∧
    (∀ (f : List Int → List Nat) (me : Nat) (node : Node) (rem : Nat) (slots : List Nat)
      (st : SearchSt) (c : Node),
      (∀ c2 ∈ st.candidates, c2.tray.length ≤ 7) →
      c ∈ (expandSlots f me node rem slots st).candidates → c.tray.length ≤ 7) := by
  constructor
  · intro board f p fr n hfr hn
    simp only [beamSearchFrontiers, beamSearchSolveAux] at hfr
    refine beamLoop_trace_inv f _ _ _ 0 _ _ 0 [] ?_ ?_ fr hfr n hn
    · intro n2 hn2
      rcases List.mem_singleton.mp hn2 with rfl
      simp
    · intro fr2 hfr2
      cases hfr2
  · intro f me node rem slots st c hst hc
    rcases expandSlots_candidates f me node rem slots st c hc with h | ⟨slot, _, hstep⟩
    · exact hst c h
    · exact hstep.2.2.2.2

/-- Witness for the capacity invariant at the initial frontier of the
[0,0,0] search. -/
theorem frontier_tray_within_capacity_witness :
    ([(⟨[0, 0, 0], [], 0, [], 0, "0,0,0|"⟩ : Node)] ∈
        beamSearchFrontiers [0, 0, 0] (fun b => List.range b.length) {} ∧
      (⟨[0, 0, 0], [], 0, [], 0, "0,0,0|"⟩ : Node) ∈
        [(⟨[0, 0, 0], [], 0, [], 0, "0,0,0|"⟩ : Node)]) ∧
    (⟨[0, 0, 0], [], 0, [], 0, "0,0,0|"⟩ : Node).tray.length ≤ 7 :=
  ⟨⟨by decide, by decide⟩,
    frontier_tray_within_capacity.1 [0, 0, 0] (fun b => List.range b.length) {}
      [⟨[0, 0, 0], [], 0, [], 0, "0,0,0|"⟩] ⟨[0, 0, 0], [], 0, [], 0, "0,0,0|"⟩
      (by decide) (by decide)⟩

/-! ### Lemmas and claim theorem: the caller's board array is not mutated -/

lemma storeExt_refl (n : Nat) (st : Store) : StoreExt n st st :=
  ⟨le_refl _, fun _ _ => rfl⟩

lemma storeExt_trans {n : Nat} {s1 s2 s3 : Store} (h1 : StoreExt n s1 s2)
    (h2 : StoreExt n s2 s3) : StoreExt n s1 s3 :=
  ⟨le_trans h1.1 h2.1, fun i hi => (h2.2 i hi).trans (h1.2 i hi)⟩

lemma storeExt_alloc {n : Nat} {st : Store} (v : List Int) (h : n ≤ st.length) :
    StoreExt n st (storeAlloc st v).1 := by
  refine ⟨by simp [storeAlloc], ?_⟩
  intro i hi
  exact List.getD_append st [v] [] i (by omega)

lemma storeExt_write_fresh {n : Nat} {st : Store} (r : Nat) (v : List Int) (h : n ≤ r) :
    StoreExt n st (storeWrite st r v) := by
  refine ⟨by simp [storeWrite], ?_⟩
  intro i hi
  simp only [storeWrite, storeRead, List.getD_eq_getElem?_getD]
  rw [List.getElem?_set_ne (by omega)]

lemma resolveTrayTriplesH_ext {n : Nat} {st : Store} (r : Nat) (h : n ≤ st.length) :
    StoreExt n st (resolveTrayTriplesH st r).1 :=
  storeExt_trans (storeExt_alloc (storeRead st r) h)
    (storeExt_write_fresh (storeAlloc st (storeRead st r)).2
      (resolveTrayTriples (storeRead st r)).tray h)

lemma expandAlloc_ext {n : Nat} (store : Store) (node : HNode) (slot : Nat) (icon : Int)
    (h : n ≤ store.length) : StoreExt n store (expandAlloc store node slot icon).1 := by
  have e1 : StoreExt n store (storeAlloc store (storeRead store node.boardRef)).1 :=
    storeExt_alloc _ h
  have e2 : StoreExt n store
      (storeWrite (storeAlloc store (storeRead store node.boardRef)).1
        (storeAlloc store (storeRead store node.boardRef)).2
        ((storeRead store node.boardRef).set slot (-1))) :=
    storeExt_trans e1 (storeExt_write_fresh _ _ h)
  have e3 : StoreExt n store
      (storeAlloc
        (storeWrite (storeAlloc store (storeRead store node.boardRef)).1
          (storeAlloc store (storeRead store node.boardRef)).2
          ((storeRead store node.boardRef).set slot (-1)))
        (storeRead
          (storeWrite (storeAlloc store (storeRead store node.boardRef)).1
            (storeAlloc store (storeRead store node.boardRef)).2
            ((storeRead store node.boardRef).set slot (-1))) node.trayRef ++ [icon])).1 :=
    storeExt_trans e2 (storeExt_alloc _ (le_trans h e2.1))
  exact storeExt_trans e3 (resolveTrayTriplesH_ext _ (le_trans h e3.1))

lemma expandSlotsH_ext (f : List Int → List Nat) (me : Nat) (node : HNode) (rem : Nat)
    {n : Nat} :
    ∀ (slots : List Nat) (hst : HSt) (s : Store), hst.store = s → n ≤ s.length →
      StoreExt n s (expandSlotsH f me node rem slots hst).store := by
  intro slots
  induction slots with
  | nil =>
    intro hst s hs h
    exact hs ▸ storeExt_refl n hst.store
  | cons slot rest ih =>
    intro hst s hs h
    subst hs
    simp only [expandSlotsH]
    split
    · exact storeExt_refl n hst.store
    · split
      · refine ih _ _ ?_ ?_
        · rfl
        · exact h
      · rename_i hbudget hicon
        have hea := expandAlloc_ext hst.store node slot
          ((storeRead hst.store node.boardRef).getD slot (-1)) h
        have hlen : n ≤ (expandAlloc hst.store node slot
            ((storeRead hst.store node.boardRef).getD slot (-1))).1.length :=
          le_trans h hea.1
        split
        · refine storeExt_trans hea (ih _ _ ?_ ?_)
          · rfl
          · exact hlen
        · split
          · refine storeExt_trans hea (ih _ _ ?_ ?_)
            · rfl
            · exact hlen
          · refine storeExt_trans hea (ih _ _ ?_ ?_)
            · rfl
            · exact hlen

lemma processBeamH_ext (f : List Int → List Nat) (me : Nat) {n : Nat} :
    ∀ (nodes : List HNode) (hst : HSt), n ≤ hst.store.length →
      StoreExt n hst.store (pbStore (processBeamH f me nodes hst)) := by
  intro nodes
  induction nodes with
  | nil =>
    intro hst h
    exact storeExt_refl n hst.store
  | cons node rest ih =>
    intro hst h
    simp only [processBeamH]
    split
    · exact storeExt_refl n hst.store
    · split
      · exact storeExt_refl n hst.store
      · have hex := expandSlotsH_ext f me node (countRemaining (storeRead hst.store node.boardRef))
          (f (storeRead hst.store node.boardRef)) hst hst.store rfl h
        exact storeExt_trans hex (ih _ (le_trans h hex.1))

lemma beamLoopH_ext (f : List Int → List Nat) (bw me : Nat) {n : Nat} :
    ∀ (fuel depth : Nat) (beam : List HNode) (visited : VMap) (exps : Nat) (store : Store),
      n ≤ store.length →
      StoreExt n store (beamLoopH f bw me fuel depth beam visited exps store).2 := by
  intro fuel
  induction fuel with
  | zero =>
    intro depth beam visited exps store h
    exact storeExt_refl n store
  | succ k ih =>
    intro depth beam visited exps store h
    rw [beamLoopH]
    by_cases hb : beam.length = 0
    · rw [if_pos hb]
      exact storeExt_refl n store
    · rw [if_neg hb]
      have hpe := processBeamH_ext f me beam ⟨exps, visited, [], store⟩ h
      cases hpb : processBeamH f me beam ⟨exps, visited, [], store⟩ with
      | inl w =>
        rw [hpb] at hpe
        simp only [pbStore] at hpe
        exact hpe
      | inr hst2 =>
        rw [hpb] at hpe
        simp only [pbStore] at hpe
        exact storeExt_trans hpe (ih (depth + 1) _ hst2.visited hst2.expansions hst2.store
          (le_trans h hpe.1))

/-- C10: a call to `isSolvable` leaves the caller's board array unchanged:
in the heap model, after the call every store cell that existed before the
call — in particular the one holding `initialBoard` — still holds its
original value; the search only reads the caller's array and works on copies
allocated within the call. -/
theorem isSolvable_leaves_caller_board_unchanged (store : Store) (boardRef : Nat)
    (f : List Int → List Nat) (p : Params) (i : Nat) (hi : i < store.length) :
    storeRead (isSolvableH store boardRef f p).2 i = storeRead store i := by
  have e1 : StoreExt store.length store
      (storeAlloc store (storeRead store boardRef)).1 :=
    storeExt_alloc _ (le_refl _)
  have e2 : StoreExt store.length store
      (storeAlloc (storeAlloc store (storeRead store boardRef)).1 []).1 :=
    storeExt_trans e1 (storeExt_alloc _ e1.1)
  have e3 := storeExt_trans e2
    (beamLoopH_ext f (effParam p.beamWidth 100) (effParam p.maxExpansions 5000)
      (effParam p.maxDepth 200) 0
      [⟨(storeAlloc store (storeRead store boardRef)).2,
        (storeAlloc (storeAlloc store (storeRead store boardRef)).1 []).2, 0, [], 0,
        hashState (storeRead store boardRef) []⟩]
      [(hashState (storeRead store boardRef) [], ⟨0, 0⟩)] 0
      (storeAlloc (storeAlloc store (storeRead store boardRef)).1 []).1 e2.1)
  exact e3.2 i hi

/-- Witness: the caller's [0,0,0] board cell is unchanged after solving. -/
theorem isSolvable_leaves_caller_board_unchanged_witness :
    (0 < ([[0, 0, 0]] : Store).length) ∧
    storeRead (isSolvableH [[0, 0, 0]] 0 (fun b => List.range b.length) {}).2 0 =
      storeRead [[0, 0, 0]] 0 :=
  ⟨by decide,
    isSolvable_leaves_caller_board_unchanged [[0, 0, 0]] 0 (fun b => List.range b.length) {}
      0 (by decide)⟩

end Overstack
